import Mathlib

/-!
# Verification of the f-shadows leader elector and delayed sender

Shallow embedding of `src/consensus/src/leader.rs` (`RRLeaderElector::get_leader`)
and `src/network/src/delayed_sender.rs` (`DelayedSender::send`, `broadcast`,
`lucky_broadcast`), together with proofs of the specified properties.

Rust's `HashMap<PublicKey, Authority>` committee storage is embedded as an
association list whose order models the (arbitrary) iteration order of the map;
a real map never holds two entries with the same key, which appears below as a
`Nodup` hypothesis on the key column.  Machine integers (`u64` rounds, ports)
are embedded as `Nat`; Rust panics (map index on a missing key, `unwrap` of
`None`, modulo by zero, out-of-bounds index, an exhausted `retain` iterator)
are embedded as explicit error results.
-/

namespace FShadows

/-- A committee member's identity (`crypto::PublicKey`, opaque and comparable). -/
abbrev PublicKey := Nat

/-- A network endpoint (`std::net::SocketAddr`): host and port. -/
structure Endpoint where
  host : Nat
  port : Nat
deriving DecidableEq, Repr

/-- The total (host, then port) order on endpoints, mirroring `SocketAddr`'s
`Ord` used by `addresses.sort()`. -/
def epLe (a b : Endpoint) : Prop :=
  a.host < b.host ∨ (a.host = b.host ∧ a.port ≤ b.port)

instance : DecidableRel epLe := fun a b => by
  unfold epLe; infer_instance

instance : IsTotal Endpoint epLe where
  total a b := by
    rcases Nat.lt_trichotomy a.host b.host with h | h | h
    · exact Or.inl (Or.inl h)
    · rcases Nat.le_total a.port b.port with hp | hp
      · exact Or.inl (Or.inr ⟨h, hp⟩)
      · exact Or.inr (Or.inr ⟨h.symm, hp⟩)
    · exact Or.inr (Or.inl h)

instance : IsTrans Endpoint epLe where
  trans a b c hab hbc := by
    rcases hab with h1 | ⟨h1, h1'⟩ <;> rcases hbc with h2 | ⟨h2, h2'⟩
    · exact Or.inl (Nat.lt_trans h1 h2)
    · exact Or.inl (h2 ▸ h1)
    · exact Or.inl (h1 ▸ h2)
    · exact Or.inr ⟨h1.trans h2, h1'.trans h2'⟩

instance : IsAntisymm Endpoint epLe where
  antisymm a b hab hba := by
    rcases hab with h1 | ⟨h1, h1'⟩ <;> rcases hba with h2 | ⟨h2, h2'⟩
    · exact absurd h2 (Nat.lt_asymm h1)
    · exact absurd h1 (by omega)
    · exact absurd h2 (by omega)
    · cases a; cases b
      simp only [Endpoint.mk.injEq]
      exact ⟨h1, Nat.le_antisymm h1' h2'⟩

/-- A committee member (`config::Authority`): we keep only the field the
elector reads, its real network address. -/
structure Authority where
  address : Endpoint
deriving DecidableEq, Repr

/-- The committee (`config::Committee`): identity → authority mapping, embedded
as an association list in iteration order. -/
structure Committee where
  authorities : List (PublicKey × Authority)
deriving DecidableEq, Repr

/-- Modelled from the spec: the Committee "exposes endpoint lookup by identity"
(`lookupEndpoint(identity) -> Endpoint | NotFound`).  The Rust
`Committee::address` lives in `src/consensus/src/config.rs`, which is not among
the provided sources. -/
def Committee.address (c : Committee) (k : PublicKey) : Option Endpoint :=
  (c.authorities.lookup k).map Authority.address

/-- Modelled from the spec: the Committee exposes "a count of members *not*
excluded by a given endpoint set" (`countEligible(excludedVirtualEndpoints)`),
where the excluded set holds virtual endpoints, i.e. a member is excluded when
its real endpoint resolves through the address map to a member of the set.  The
Rust `Committee::size_by_firewall` lives in `src/consensus/src/config.rs`,
which is not among the provided sources. -/
def Committee.size_by_firewall (c : Committee) (dns : List (Endpoint × Endpoint))
    (firewall : List Endpoint) : Nat :=
  (c.authorities.filter fun e =>
    match dns.lookup e.2.address with
    | some v => !(firewall.contains v)
    | none => true).length

/-- How a run of `get_leader` can fail: `configurationError` is the panic of
indexing `dns` at a missing key (the spec's fatal ConfigurationError);
`trap` is any other panic (`unwrap` of `None`, the exhausted `retain`
iterator, modulo by zero, index out of bounds). -/
inductive ElectError
  | configurationError
  | trap
deriving DecidableEq, Repr

/-- `let mut addresses: Vec<_> = values.iter().map(|x| dns[&x.address]).collect();`
— resolve every authority's real address through `dns`; a missing entry is the
`dns[..]` panic, surfaced as `configurationError`. -/
def resolveAll (dns : List (Endpoint × Endpoint)) : List Authority → Except ElectError (List Endpoint)
  | [] => .ok []
  | a :: rest =>
    match dns.lookup a.address with
    | none => .error .configurationError
    | some v =>
      match resolveAll dns rest with
      | .error e => .error e
      | .ok t => .ok (v :: t)

/-- The inner loop of `get_leader`: one pass of
`for key in keys.iter() { if dns[&self.committee.address(&key).unwrap()] == *address { keys_order.push(key.clone()); } }`.
`Committee::address` returning `None` is the `unwrap` panic (`trap`); a `dns`
index miss is `configurationError`. -/
def matchKeys (c : Committee) (dns : List (Endpoint × Endpoint)) (address : Endpoint) :
    List PublicKey → Except ElectError (List PublicKey)
  | [] => .ok []
  | k :: ks =>
    match c.address k with
    | none => .error .trap
    | some ep =>
      match dns.lookup ep with
      | none => .error .configurationError
      | some v =>
        match matchKeys c dns address ks with
        | .error e => .error e
        | .ok t => .ok (if v = address then k :: t else t)

/-- The outer loop of `get_leader` building `keys_order`: for each sorted
virtual address, append every key resolving to it. -/
def buildKeysOrder (c : Committee) (dns : List (Endpoint × Endpoint)) (keys : List PublicKey) :
    List Endpoint → Except ElectError (List PublicKey)
  | [] => .ok []
  | address :: rest =>
    match matchKeys c dns address keys with
    | .error e => .error e
    | .ok matched =>
      match buildKeysOrder c dns keys rest with
      | .error e => .error e
      | .ok tail => .ok (matched ++ tail)

/-- `let mut iter = indices.iter(); keys_order.retain(|_| *iter.next().unwrap());`
— keep each element of the list whose mask bit is true; if the mask iterator is
exhausted while elements remain, the `unwrap` of `None` panics (`trap`). -/
def retainMask : List PublicKey → List Bool → Except ElectError (List PublicKey)
  | [], _ => .ok []
  | _ :: _, [] => .error .trap
  | k :: ks, b :: bs =>
    match retainMask ks bs with
    | .error e => .error e
    | .ok rest => .ok (if b then k :: rest else rest)

/-- Shallow embedding of `RRLeaderElector::get_leader`
(src/consensus/src/leader.rs lines 18–46). -/
def get_leader (c : Committee) (round : Nat) (firewall : List Endpoint)
    (dns : List (Endpoint × Endpoint)) : Except ElectError PublicKey :=
  match resolveAll dns (c.authorities.map Prod.snd) with
  | .error e => .error e
  | .ok addresses0 =>
    let addresses := List.insertionSort epLe addresses0
    match buildKeysOrder c dns (c.authorities.map Prod.fst) addresses with
    | .error e => .error e
    | .ok keys_order =>
      match retainMask keys_order (addresses.map fun v => !(firewall.contains v)) with
      | .error e => .error e
      | .ok retained =>
        let n := c.size_by_firewall dns firewall
        if n = 0 then
          .error .trap
        else
          match retained[round % n]? with
          | none => .error .trap
          | some k => .ok k

/-! ## Specification-side description of the election

These definitions follow the spec's wording ("sort resolved virtual endpoints
ascending by the total order", "filter to eligible", "return
`eligible[round mod N]`") and are proved to coincide with `get_leader` on
well-formed inputs. -/

/-- The virtual endpoint an authority resolves to through the address map
(defaulting arbitrarily when the map misses; only used under a coverage
hypothesis). -/
def resolveAuthority (dns : List (Endpoint × Endpoint)) (a : Authority) : Endpoint :=
  (dns.lookup a.address).getD ⟨0, 0⟩

/-- The virtual endpoint of a committee entry. -/
def virtOf (dns : List (Endpoint × Endpoint)) (e : PublicKey × Authority) : Endpoint :=
  resolveAuthority dns e.2

/-- Comparison of committee entries by their virtual endpoints. -/
def pairLe (dns : List (Endpoint × Endpoint)) (e f : PublicKey × Authority) : Prop :=
  epLe (virtOf dns e) (virtOf dns f)

instance (dns : List (Endpoint × Endpoint)) : DecidableRel (pairLe dns) := fun e f => by
  unfold pairLe; infer_instance

instance (dns : List (Endpoint × Endpoint)) : IsTotal (PublicKey × Authority) (pairLe dns) where
  total a b := IsTotal.total (r := epLe) (virtOf dns a) (virtOf dns b)

instance (dns : List (Endpoint × Endpoint)) : IsTrans (PublicKey × Authority) (pairLe dns) where
  trans a b c hab hbc := IsTrans.trans (r := epLe) _ _ _ hab hbc

/-- The committee members listed in ascending order of virtual endpoint. -/
def sortedMembers (c : Committee) (dns : List (Endpoint × Endpoint)) :
    List (PublicKey × Authority) :=
  List.insertionSort (pairLe dns) c.authorities

/-- The eligible candidate list of the spec: members in ascending order of
virtual endpoint, dropping those whose virtual endpoint lies in the firewall
set, projected to identities. -/
def eligibleList (c : Committee) (dns : List (Endpoint × Endpoint))
    (firewall : List Endpoint) : List PublicKey :=
  ((sortedMembers c dns).filter fun e => !(firewall.contains (virtOf dns e))).map Prod.fst

/-- The committee mapping holds each identity at most once (the invariant of
the Rust `HashMap<PublicKey, Authority>` storage). -/
def keysNodup (c : Committee) : Prop :=
  (c.authorities.map Prod.fst).Nodup

instance (c : Committee) : Decidable (keysNodup c) := by
  unfold keysNodup; infer_instance

/-- The address map covers every committee endpoint. -/
def covers (dns : List (Endpoint × Endpoint)) (c : Committee) : Prop :=
  ∀ e ∈ c.authorities, (dns.lookup e.2.address).isSome

instance (dns : List (Endpoint × Endpoint)) (c : Committee) : Decidable (covers dns c) := by
  unfold covers; infer_instance

/-- The committee members' virtual endpoints are pairwise distinct. -/
def virtsNodup (c : Committee) (dns : List (Endpoint × Endpoint)) : Prop :=
  (c.authorities.map (virtOf dns)).Nodup

instance (c : Committee) (dns : List (Endpoint × Endpoint)) : Decidable (virtsNodup c dns) := by
  unfold virtsNodup; infer_instance

/-- The virtual endpoint `get_leader`'s inner loop computes for a key:
`dns[&self.committee.address(&key).unwrap()]`. -/
def virtKey (c : Committee) (dns : List (Endpoint × Endpoint)) (k : PublicKey) : Endpoint :=
  ((c.address k).bind dns.lookup).getD ⟨0, 0⟩

/-- Pure form of the `keys_order` construction: for each address in order,
the keys whose resolved virtual endpoint equals it. -/
def keysOrderPure (c : Committee) (dns : List (Endpoint × Endpoint)) (keys : List PublicKey) :
    List Endpoint → List PublicKey
  | [] => []
  | address :: rest =>
    (keys.filter fun k => decide (virtKey c dns k = address)) ++ keysOrderPure c dns keys rest

/-! ## Shallow embedding of `DelayedSender` (src/network/src/delayed_sender.rs)

The asynchronous effects are externalised: the mpsc channel handoffs that can
fail are driven by a `SendEnv`, spawned `Connection` actors and enqueued
payloads are recorded as `Event`s, and the entropy source behind
`lucky_broadcast`'s shuffle is passed in as a function. -/

/-- Opaque message payload (`bytes::Bytes`). -/
abbrev Bytes := List Nat

/-- How `send` can fail: any Rust panic (`dns` index on a missing key, the
underflow of `self.firewall.len()-1` on an empty schedule, `unwrap` of a
missing schedule entry). -/
inductive SendError
  | trap
deriving DecidableEq, Repr

/-- Behaviour of the two fallible mpsc handoffs inside one `send` call:
whether `tx.send` succeeds on the existing connection, and on a freshly
spawned one. -/
structure SendEnv where
  existingSendOk : Bool
  newSendOk : Bool
deriving DecidableEq, Repr

/-- Observable effects of a `send` call. -/
inductive Event
  | spawned (address : Endpoint) (chan : Nat)
  | enqueued (chan : Nat) (data : Bytes)
deriving DecidableEq, Repr

/-- State of `DelayedSender`.  Channel handles (`Sender<Bytes>`) are embedded
as numeric ids, with `nextChan` supplying fresh ids for spawned connections;
the `rng` field is externalised as described above. -/
structure DelayedSender where
  connections : List (Endpoint × Nat)
  firewall : List (Nat × List Endpoint)
  allow_communications_at_round : Nat
  network_delay : Nat
  dns : List (Endpoint × Endpoint)
  nextChan : Nat
deriving DecidableEq, Repr

/-- `self.firewall.get(&((self.firewall.len()-1) as u64)).unwrap()` — the
schedule entry the transport path always consults.  `none` models a panic:
`len()-1` underflows on an empty schedule, and `unwrap` traps when no entry
has key `len-1`. -/
def lastEntry (s : DelayedSender) : Option (List Endpoint) :=
  if s.firewall.length = 0 then none
  else s.firewall.lookup (s.firewall.length - 1)

/-- The fall-through path of `send`: spawn a new `Connection`, try to hand it
the payload, and register the channel only if the handoff succeeds. -/
def sendNew (s : DelayedSender) (env : SendEnv) (address : Endpoint) (data : Bytes) :
    DelayedSender × List Event :=
  let tx := s.nextChan
  let s' := { s with nextChan := s.nextChan + 1 }
  if env.newSendOk then
    ({ s' with
        connections := (address, tx) :: s'.connections.filter fun p => !(p.1 == address) },
     [.spawned address tx, .enqueued tx data])
  else
    (s', [.spawned address tx])

/-- Shallow embedding of `DelayedSender::send`
(src/network/src/delayed_sender.rs lines 67–92).  `current_round` is a
parameter of the Rust function but is never read by it. -/
def DelayedSender.send (s : DelayedSender) (env : SendEnv) (address : Endpoint)
    (data : Bytes) (current_round : Nat) :
    Except SendError (DelayedSender × List Event) :=
  match s.dns.lookup address with
  | none => .error .trap
  | some virtual_address =>
    match lastEntry s with
    | none => .error .trap
    | some entry =>
      if !(entry.contains virtual_address) then
        match s.connections.lookup address with
        | some tx =>
          if env.existingSendOk then .ok (s, [.enqueued tx data])
          else .ok (sendNew s env address data)
        | none => .ok (sendNew s env address data)
      else
        .ok (s, [])

/-- Sequential sends of `broadcast`, threading the state; `envs i` gives the
channel-handoff behaviour of the i-th send. -/
def broadcastFrom (envs : Nat → SendEnv) (data : Bytes) (current_round : Nat) :
    DelayedSender → Nat → List Endpoint → Except SendError (DelayedSender × List Event)
  | s, _, [] => .ok (s, [])
  | s, i, address :: rest =>
    match s.send (envs i) address data current_round with
    | .error e => .error e
    | .ok (s', evs) =>
      match broadcastFrom envs data current_round s' (i + 1) rest with
      | .error e => .error e
      | .ok (s'', evs') => .ok (s'', evs ++ evs')

/-- Shallow embedding of `DelayedSender::broadcast`
(src/network/src/delayed_sender.rs lines 95–99). -/
def DelayedSender.broadcast (s : DelayedSender) (envs : Nat → SendEnv)
    (addresses : List Endpoint) (data : Bytes) (current_round : Nat) :
    Except SendError (DelayedSender × List Event) :=
  broadcastFrom envs data current_round s 0 addresses

/-- Shallow embedding of `DelayedSender::lucky_broadcast`
(src/network/src/delayed_sender.rs lines 103–113): permute with the injected
entropy source (externalised as `shuffle`), keep the first `nodes`, broadcast
to them. -/
def DelayedSender.lucky_broadcast (s : DelayedSender) (envs : Nat → SendEnv)
    (shuffle : List Endpoint → List Endpoint) (addresses : List Endpoint)
    (data : Bytes) (nodes : Nat) (current_round : Nat) :
    Except SendError (DelayedSender × List Event) :=
  s.broadcast envs ((shuffle addresses).take nodes) data current_round

/-! ## Concrete examples from the spec

The spec's example committee {A@10.0.0.1:9000, B@10.0.0.2:9000, C@10.0.0.3:9000}
with the identity address map.  IPv4 hosts are encoded as the number
10.0.0.x ↦ 10000000000 + x, which preserves their order. -/

def epA : Endpoint := ⟨10000000001, 9000⟩

def epB : Endpoint := ⟨10000000002, 9000⟩

def epC : Endpoint := ⟨10000000003, 9000⟩

def pkA : PublicKey := 1

def pkB : PublicKey := 2

def pkC : PublicKey := 3

def exCommittee : Committee := ⟨[(pkA, ⟨epA⟩), (pkB, ⟨epB⟩), (pkC, ⟨epC⟩)]⟩

/-- The same committee held in a different internal storage order. -/
def exCommitteeRev : Committee := ⟨[(pkC, ⟨epC⟩), (pkB, ⟨epB⟩), (pkA, ⟨epA⟩)]⟩

def exDns : List (Endpoint × Endpoint) := [(epA, epA), (epB, epB), (epC, epC)]

/-- An address map missing C's endpoint. -/
def exDnsPartial : List (Endpoint × Endpoint) := [(epA, epA), (epB, epB)]

/-- A two-member committee whose members collide on one virtual endpoint. -/
def collCommittee : Committee := ⟨[(pkA, ⟨epA⟩), (pkB, ⟨epB⟩)]⟩

def collDns : List (Endpoint × Endpoint) := [(epA, epA), (epB, epA)]

/-- A sender whose schedule has a single entry excluding B's endpoint. -/
def exSender : DelayedSender := ⟨[], [(0, [epB])], 20000, 10, exDns, 0⟩

/-- Ten distinct peers for the lucky-broadcast example. -/
def exPeers : List Endpoint :=
  [⟨1, 8000⟩, ⟨2, 8000⟩, ⟨3, 8000⟩, ⟨4, 8000⟩, ⟨5, 8000⟩,
   ⟨6, 8000⟩, ⟨7, 8000⟩, ⟨8, 8000⟩, ⟨9, 8000⟩, ⟨10, 8000⟩]

/-! ## Association-list lookup lemmas -/

theorem mem_of_lookup_eq_some {α β : Type} [BEq α] [LawfulBEq α] {l : List (α × β)} {k : α}
    {b : β} (h : l.lookup k = some b) : (k, b) ∈ l := by
  induction l with
  | nil => simp [List.lookup] at h
  | cons p t ih =>
    obtain ⟨k', b'⟩ := p
    rcases eq_or_ne k k' with rfl | hk
    · simp [List.lookup] at h
      simp [h]
    · simp only [List.lookup, beq_eq_false_iff_ne.mpr hk] at h
      exact List.mem_cons_of_mem _ (ih h)

theorem lookup_isSome_of_mem_keys {α β : Type} [BEq α] [LawfulBEq α] {l : List (α × β)} {k : α}
    (h : k ∈ l.map Prod.fst) : (l.lookup k).isSome := by
  induction l with
  | nil => simp at h
  | cons p t ih =>
    obtain ⟨k', b'⟩ := p
    rcases eq_or_ne k k' with rfl | hk
    · simp [List.lookup]
    · simp only [List.map_cons, List.mem_cons] at h
      rcases h with h | h

      · exact absurd h hk
      · simpa only [List.lookup, beq_eq_false_iff_ne.mpr hk] using ih h

theorem lookup_eq_some_of_nodup {α β : Type} [BEq α] [LawfulBEq α] {l : List (α × β)} {k : α}
    {b : β} (hnd : (l.map Prod.fst).Nodup) (h : (k, b) ∈ l) : l.lookup k = some b := by
  induction l with
  | nil => simp at h
  | cons p t ih =>
    obtain ⟨k', b'⟩ := p
    simp only [List.map_cons, List.nodup_cons] at hnd
    rcases List.mem_cons.mp h with h1 | h2
    · have hk : k = k' := congrArg Prod.fst h1
      have hb : b = b' := congrArg Prod.snd h1
      subst hk; subst hb
      simp [List.lookup]
    · rcases eq_or_ne k k' with rfl | hk
      · exact (hnd.1 (List.mem_map.mpr ⟨(k, b), h2, rfl⟩)).elim
      · simpa only [List.lookup, beq_eq_false_iff_ne.mpr hk] using ih hnd.2 h2

/-! ## Stage lemmas for `get_leader` -/

theorem resolveAll_eq_map (dns : List (Endpoint × Endpoint)) :
    ∀ l : List Authority, (∀ a ∈ l, (dns.lookup a.address).isSome) →
      resolveAll dns l = .ok (l.map (resolveAuthority dns))
  | [], _ => rfl
  | a :: rest, h => by
    obtain ⟨v, hv⟩ := Option.isSome_iff_exists.mp (h a (List.mem_cons_self a rest))
    have ht := resolveAll_eq_map dns rest fun x hx => h x (List.mem_cons_of_mem a hx)
    simp [resolveAll, hv, ht, resolveAuthority]

theorem resolveAll_error_of_missing (dns : List (Endpoint × Endpoint)) :
    ∀ l : List Authority, (∃ a ∈ l, dns.lookup a.address = none) →
      resolveAll dns l = .error .configurationError
  | [], h => by simp at h
  | a :: rest, h => by
    rcases h with ⟨x, hx, hmiss⟩
    rcases List.mem_cons.mp hx with rfl | hx
    · simp [resolveAll, hmiss]
    · cases hl : dns.lookup a.address with
      | none => simp [resolveAll, hl]
      | some v =>
        have ht := resolveAll_error_of_missing dns rest ⟨x, hx, hmiss⟩
        simp [resolveAll, hl, ht]

theorem matchKeys_eq_filter (c : Committee) (dns : List (Endpoint × Endpoint))
    (address : Endpoint) :
    ∀ ks : List PublicKey,
      (∀ k ∈ ks, ∃ ep, c.address k = some ep ∧ (dns.lookup ep).isSome) →
      matchKeys c dns address ks =
        .ok (ks.filter fun k => decide (virtKey c dns k = address))
  | [], _ => rfl
  | k :: ks, h => by
    obtain ⟨ep, hep, hsome⟩ := h k (List.mem_cons_self k ks)
    obtain ⟨v, hv⟩ := Option.isSome_iff_exists.mp hsome
    have hvk : virtKey c dns k = v := by
      simp [virtKey, hep, hv]
    have ht := matchKeys_eq_filter c dns address ks fun x hx =>
      h x (List.mem_cons_of_mem k hx)
    by_cases hva : v = address
    · simp [matchKeys, hep, hv, ht, List.filter_cons, hvk, hva]
    · simp [matchKeys, hep, hv, ht, List.filter_cons, hvk, hva]

theorem matchKeys_ne_config (c : Committee) (dns : List (Endpoint × Endpoint))
    (address : Endpoint)
    (hc : ∀ k ep, c.address k = some ep → (dns.lookup ep).isSome) :
    ∀ ks, matchKeys c dns address ks ≠ .error .configurationError
  | [] => by simp [matchKeys]
  | k :: ks => by
    cases hep : c.address k with
    | none => simp [matchKeys, hep]
    | some ep =>
      obtain ⟨v, hv⟩ := Option.isSome_iff_exists.mp (hc k ep hep)
      cases hm : matchKeys c dns address ks with
      | error e =>
        have h' := matchKeys_ne_config c dns address hc ks
        rw [hm] at h'
        simp [matchKeys, hep, hv, hm]
        rintro rfl
        exact h' rfl
      | ok t => simp [matchKeys, hep, hv, hm]

theorem buildKeysOrder_eq_pure (c : Committee) (dns : List (Endpoint × Endpoint))
    (keys : List PublicKey)
    (hks : ∀ k ∈ keys, ∃ ep, c.address k = some ep ∧ (dns.lookup ep).isSome) :
    ∀ M, buildKeysOrder c dns keys M = .ok (keysOrderPure c dns keys M)
  | [] => rfl
  | address :: rest => by
    have hm := matchKeys_eq_filter c dns address keys hks
    have ht := buildKeysOrder_eq_pure c dns keys hks rest
    simp [buildKeysOrder, hm, ht, keysOrderPure]

theorem buildKeysOrder_ne_config (c : Committee) (dns : List (Endpoint × Endpoint))
    (keys : List PublicKey)
    (hc : ∀ k ep, c.address k = some ep → (dns.lookup ep).isSome) :
    ∀ M, buildKeysOrder c dns keys M ≠ .error .configurationError
  | [] => by simp [buildKeysOrder]
  | address :: rest => by
    cases hm : matchKeys c dns address keys with
    | error e =>
      have h' := matchKeys_ne_config c dns address hc keys
      rw [hm] at h'
      simp [buildKeysOrder, hm]
      rintro rfl
      exact h' rfl
    | ok matched =>
      cases hb : buildKeysOrder c dns keys rest with
      | error e =>
        have h' := buildKeysOrder_ne_config c dns keys hc rest
        rw [hb] at h'
        simp [buildKeysOrder, hm, hb]
        rintro rfl
        exact h' rfl
      | ok tail => simp [buildKeysOrder, hm, hb]

theorem retainMask_map {β : Type} (g : β → Bool) (f : β → PublicKey) :
    ∀ L : List β, retainMask (L.map f) (L.map g) = .ok ((L.filter g).map f)
  | [] => rfl
  | x :: L => by
    have := retainMask_map g f L
    by_cases hg : g x
    · simp [retainMask, this, List.filter_cons, hg]
    · simp [retainMask, this, List.filter_cons, hg]

theorem retainMask_error_of_short :
    ∀ (ks : List PublicKey) (bs : List Bool), bs.length < ks.length →
      retainMask ks bs = .error .trap
  | [], _, h => absurd h (by simp)
  | _ :: _, [], _ => rfl
  | k :: ks, b :: bs, h => by
    have h' := retainMask_error_of_short ks bs (by simpa using h)
    simp [retainMask, h']

theorem retainMask_ne_config :
    ∀ (ks : List PublicKey) (bs : List Bool),
      retainMask ks bs ≠ .error .configurationError
  | [], _ => by simp [retainMask]
  | _ :: _, [] => by simp [retainMask]
  | k :: ks, b :: bs => by
    cases hr : retainMask ks bs with
    | error e =>
      have := retainMask_ne_config ks bs
      rw [hr] at this
      simp [retainMask, hr]
      rintro rfl
      exact this rfl
    | ok rest => simp [retainMask, hr]

/-! ## Well-formed committees: `keys_order` matches the sorted member list -/

theorem keys_resolvable (c : Committee) (dns : List (Endpoint × Endpoint))
    (hcov : covers dns c) :
    ∀ k ∈ c.authorities.map Prod.fst,
      ∃ ep, c.address k = some ep ∧ (dns.lookup ep).isSome := by
  intro k hk
  have h1 : (c.authorities.lookup k).isSome := lookup_isSome_of_mem_keys hk
  obtain ⟨a, ha⟩ := Option.isSome_iff_exists.mp h1
  refine ⟨a.address, ?_, hcov _ (mem_of_lookup_eq_some ha)⟩
  simp [Committee.address, ha]

theorem virtKey_eq (c : Committee) (dns : List (Endpoint × Endpoint)) (hkeys : keysNodup c) :
    ∀ e ∈ c.authorities, virtKey c dns e.1 = virtOf dns e := by
  intro e he
  have hl : c.authorities.lookup e.1 = some e.2 :=
    lookup_eq_some_of_nodup hkeys (by obtain ⟨k, a⟩ := e; exact he)
  simp [virtKey, Committee.address, hl, virtOf, resolveAuthority]

theorem filter_eq_singleton {α : Type} {l : List α} {p : α → Bool} {a : α}
    (hnd : l.Nodup) (ha : a ∈ l) (hp : ∀ x ∈ l, (p x = true ↔ x = a)) :
    l.filter p = [a] := by
  induction l with
  | nil => simp at ha
  | cons y t ih =>
    simp only [List.nodup_cons] at hnd
    rcases List.mem_cons.mp ha with rfl | hat
    · have hy : p a = true := (hp a (List.mem_cons_self a t)).mpr rfl
      have ht : t.filter p = [] := by
        rw [List.filter_eq_nil_iff]
        intro x hx hpx
        exact hnd.1 (((hp x (List.mem_cons_of_mem a hx)).mp hpx) ▸ hx)
      simp [List.filter_cons, hy, ht]
    · have hy : p y = false := by
        rcases Bool.eq_false_or_eq_true (p y) with h | h
        · exact absurd (((hp y (List.mem_cons_self y t)).mp h).symm ▸ hat) hnd.1
        · exact h
      have ht := ih hnd.2 hat fun x hx => hp x (List.mem_cons_of_mem y hx)
      simp [List.filter_cons, hy, ht]

theorem filter_virtKey_singleton (c : Committee) (dns : List (Endpoint × Endpoint))
    (hkeys : keysNodup c) (hdist : virtsNodup c dns) (e : PublicKey × Authority)
    (he : e ∈ c.authorities) :
    ((c.authorities.map Prod.fst).filter fun k =>
      decide (virtKey c dns k = virtOf dns e)) = [e.1] := by
  apply filter_eq_singleton hkeys (List.mem_map_of_mem Prod.fst he)
  intro k hk
  simp only [decide_eq_true_eq]
  constructor
  · intro hkv
    obtain ⟨f, hf, rfl⟩ := List.mem_map.mp hk
    rw [virtKey_eq c dns hkeys f hf] at hkv
    exact congrArg Prod.fst (List.inj_on_of_nodup_map hdist hf he hkv)
  · rintro rfl
    exact virtKey_eq c dns hkeys e he

theorem keysOrderPure_map (c : Committee) (dns : List (Endpoint × Endpoint))
    (hkeys : keysNodup c) (hdist : virtsNodup c dns) :
    ∀ M : List (PublicKey × Authority), (∀ e ∈ M, e ∈ c.authorities) →
      keysOrderPure c dns (c.authorities.map Prod.fst) (M.map (virtOf dns)) =
        M.map Prod.fst
  | [], _ => rfl
  | e :: M, h => by
    have h1 := filter_virtKey_singleton c dns hkeys hdist e (h e (List.mem_cons_self e M))
    have h2 := keysOrderPure_map c dns hkeys hdist M fun x hx =>
      h x (List.mem_cons_of_mem e hx)
    simp [keysOrderPure, h1, h2]

/-! ## Sorting members by virtual endpoint commutes with projection -/

theorem map_orderedInsert (dns : List (Endpoint × Endpoint)) (e : PublicKey × Authority) :
    ∀ l : List (PublicKey × Authority),
      (List.orderedInsert (pairLe dns) e l).map (virtOf dns) =
        List.orderedInsert epLe (virtOf dns e) (l.map (virtOf dns))
  | [] => rfl
  | f :: l => by
    have ih := map_orderedInsert dns e l
    by_cases h : pairLe dns e f
    · have h' : epLe (virtOf dns e) (virtOf dns f) := h
      simp [List.orderedInsert, h, h']
    · have h' : ¬ epLe (virtOf dns e) (virtOf dns f) := h
      simp [List.orderedInsert, h, h', ih]

theorem map_insertionSort (dns : List (Endpoint × Endpoint)) :
    ∀ l : List (PublicKey × Authority),
      (List.insertionSort (pairLe dns) l).map (virtOf dns) =
        List.insertionSort epLe (l.map (virtOf dns))
  | [] => rfl
  | e :: l => by
    have ih := map_insertionSort dns l
    simp [List.insertionSort, map_orderedInsert, ih]

/-! ## The master description of `get_leader` on well-formed inputs -/

theorem sortedMembers_subset (c : Committee) (dns : List (Endpoint × Endpoint)) :
    ∀ e ∈ sortedMembers c dns, e ∈ c.authorities := fun e he =>
  (List.perm_insertionSort (pairLe dns) c.authorities).mem_iff.mp he

theorem size_by_firewall_eq (c : Committee) (dns : List (Endpoint × Endpoint))
    (firewall : List Endpoint) (hcov : covers dns c) :
    c.size_by_firewall dns firewall = (eligibleList c dns firewall).length := by
  unfold Committee.size_by_firewall eligibleList sortedMembers
  rw [List.length_map]
  have hp : ∀ e ∈ c.authorities,
      ((match dns.lookup e.2.address with
        | some v => !(firewall.contains v)
        | none => true) : Bool) = !(firewall.contains (virtOf dns e)) := by
    intro e he
    obtain ⟨v, hv⟩ := Option.isSome_iff_exists.mp (hcov e he)
    simp [hv, virtOf, resolveAuthority]
  rw [List.filter_congr hp]
  exact ((List.perm_insertionSort (pairLe dns) c.authorities).symm.filter _).length_eq

theorem get_leader_eq_spec (c : Committee) (round : Nat) (firewall : List Endpoint)
    (dns : List (Endpoint × Endpoint)) (hkeys : keysNodup c) (hcov : covers dns c)
    (hdist : virtsNodup c dns) :
    get_leader c round firewall dns =
      if (eligibleList c dns firewall).length = 0 then .error .trap
      else .ok ((eligibleList c dns firewall).getD
        (round % (eligibleList c dns firewall).length) 0) := by
  have hres : resolveAll dns (c.authorities.map Prod.snd) =
      .ok (c.authorities.map (virtOf dns)) := by
    rw [resolveAll_eq_map dns _ fun a ha => by
      obtain ⟨e, he, rfl⟩ := List.mem_map.mp ha
      exact hcov e he]
    rw [List.map_map]
    rfl
  have hsortaddr : List.insertionSort epLe (c.authorities.map (virtOf dns)) =
      (sortedMembers c dns).map (virtOf dns) := (map_insertionSort dns c.authorities).symm
  have hko : buildKeysOrder c dns (c.authorities.map Prod.fst)
      ((sortedMembers c dns).map (virtOf dns)) =
      .ok ((sortedMembers c dns).map Prod.fst) := by
    rw [buildKeysOrder_eq_pure c dns _ (keys_resolvable c dns hcov)]
    rw [keysOrderPure_map c dns hkeys hdist _ (sortedMembers_subset c dns)]
  have hmask : ((sortedMembers c dns).map (virtOf dns)).map
        (fun v => !(firewall.contains v)) =
      (sortedMembers c dns).map fun e => !(firewall.contains (virtOf dns e)) := by
    rw [List.map_map]
    rfl
  have hret : retainMask ((sortedMembers c dns).map Prod.fst)
      ((sortedMembers c dns).map fun e => !(firewall.contains (virtOf dns e))) =
      .ok (eligibleList c dns firewall) := retainMask_map _ _ _
  have hsize := size_by_firewall_eq c dns firewall hcov
  unfold get_leader
  rw [hres]
  simp only []
  rw [hsortaddr, hko]
  simp only []
  rw [hmask, hret]
  simp only []
  rw [hsize]
  by_cases h0 : (eligibleList c dns firewall).length = 0
  · simp [h0]
  · have hlt : round % (eligibleList c dns firewall).length <
        (eligibleList c dns firewall).length :=
      Nat.mod_lt _ (Nat.pos_of_ne_zero h0)
    simp [h0, List.getElem?_eq_getElem hlt, List.getD_eq_getElem _ _ hlt]

/-! ## Colliding virtual endpoints make the retain step trap

When two members share a virtual endpoint, `keys_order` gains one entry per
(sorted-address occurrence, matching key) pair while the mask has one entry per
member, so the mask iterator is exhausted and `retain`'s `unwrap` panics. -/

theorem keysOrderPure_length (c : Committee) (dns : List (Endpoint × Endpoint))
    (keys : List PublicKey) :
    ∀ M : List Endpoint, (keysOrderPure c dns keys M).length =
      (M.map fun ad => (keys.filter fun k => decide (virtKey c dns k = ad)).length).sum
  | [] => rfl
  | ad :: M => by
    simp [keysOrderPure, keysOrderPure_length c dns keys M]

theorem countP_virtKey (c : Committee) (dns : List (Endpoint × Endpoint))
    (hkeys : keysNodup c) (ad : Endpoint) :
    (c.authorities.map Prod.fst).countP (fun k => decide (virtKey c dns k = ad)) =
      (c.authorities.map (virtOf dns)).count ad := by
  rw [List.countP_map, List.count_eq_countP, List.countP_map]
  apply List.countP_congr
  intro e he
  simp only [Function.comp_apply, decide_eq_true_eq, beq_iff_eq]
  rw [virtKey_eq c dns hkeys e he]

theorem length_le_sum_map {α : Type} (f : α → Nat) :
    ∀ l : List α, (∀ a ∈ l, 1 ≤ f a) → l.length ≤ (l.map f).sum
  | [], _ => Nat.le_refl 0
  | a :: t, h => by
    simp only [List.map_cons, List.sum_cons, List.length_cons]
    have h1 := h a (List.mem_cons_self a t)
    have h2 := length_le_sum_map f t fun x hx => h x (List.mem_cons_of_mem a hx)
    omega

theorem length_lt_sum_count {l : List Endpoint} (hnd : ¬ l.Nodup) :
    l.length < (l.map fun a => l.count a).sum := by
  obtain ⟨v, hv⟩ : ∃ v, 2 ≤ l.count v := by
    by_contra h
    push_neg at h
    exact hnd (List.nodup_iff_count_le_one.mpr fun a => by have := h a; omega)
  have hvmem : v ∈ l := List.count_pos_iff.mp (by omega)
  have hperm1 : l.Perm (v :: l.erase v) := List.perm_cons_erase hvmem
  have hcount2 : 1 ≤ (l.erase v).count v := by
    have := List.count_erase_self v l
    omega
  have hvmem2 : v ∈ l.erase v := List.count_pos_iff.mp (by omega)
  have hperm2 : (l.erase v).Perm (v :: (l.erase v).erase v) := List.perm_cons_erase hvmem2
  have hperm : l.Perm (v :: v :: (l.erase v).erase v) := hperm1.trans (hperm2.cons v)
  have hsum : (l.map fun a => l.count a).sum =
      ((v :: v :: (l.erase v).erase v).map fun a => l.count a).sum :=
    (hperm.map _).sum_eq
  have hlen : l.length = ((l.erase v).erase v).length + 2 := by
    have := hperm.length_eq
    simpa using this
  have htsum : ((l.erase v).erase v).length ≤
      (((l.erase v).erase v).map fun a => l.count a).sum := by
    apply length_le_sum_map
    intro a hat
    have hal : a ∈ l := hperm.symm.subset (List.mem_cons_of_mem v (List.mem_cons_of_mem v hat))
    have := List.count_pos_iff.mpr hal
    omega
  rw [hsum]
  simp only [List.map_cons, List.sum_cons]
  omega

theorem get_leader_trap_of_collision (c : Committee) (round : Nat)
    (firewall : List Endpoint) (dns : List (Endpoint × Endpoint))
    (hkeys : keysNodup c) (hcov : covers dns c) (hdup : ¬ virtsNodup c dns) :
    get_leader c round firewall dns = .error .trap := by
  have hres : resolveAll dns (c.authorities.map Prod.snd) =
      .ok (c.authorities.map (virtOf dns)) := by
    rw [resolveAll_eq_map dns _ fun a ha => by
      obtain ⟨e, he, rfl⟩ := List.mem_map.mp ha
      exact hcov e he]
    rw [List.map_map]
    rfl
  have hko := buildKeysOrder_eq_pure c dns (c.authorities.map Prod.fst)
    (keys_resolvable c dns hcov) (List.insertionSort epLe (c.authorities.map (virtOf dns)))
  have hperm : (List.insertionSort epLe (c.authorities.map (virtOf dns))).Perm
      (c.authorities.map (virtOf dns)) := List.perm_insertionSort _ _
  have hlen : (List.insertionSort epLe (c.authorities.map (virtOf dns))).length <
      (keysOrderPure c dns (c.authorities.map Prod.fst)
        (List.insertionSort epLe (c.authorities.map (virtOf dns)))).length := by
    rw [keysOrderPure_length]
    have hmapeq : (List.insertionSort epLe (c.authorities.map (virtOf dns))).map
        (fun ad => ((c.authorities.map Prod.fst).filter
          fun k => decide (virtKey c dns k = ad)).length) =
        (List.insertionSort epLe (c.authorities.map (virtOf dns))).map
          fun ad => (c.authorities.map (virtOf dns)).count ad := by
      apply List.map_congr_left
      intro ad _
      rw [← List.countP_eq_length_filter]
      exact countP_virtKey c dns hkeys ad
    rw [hmapeq, hperm.length_eq, (hperm.map _).sum_eq]
    exact length_lt_sum_count hdup
  unfold get_leader
  rw [hres]
  simp only []
  rw [hko]
  simp only []
  rw [retainMask_error_of_short _ _ (by simpa using hlen)]

/-! ## Storage-order invariance helpers -/

theorem get_leader_config_of_missing (c : Committee) (round : Nat)
    (firewall : List Endpoint) (dns : List (Endpoint × Endpoint))
    (hmiss : ∃ e ∈ c.authorities, dns.lookup e.2.address = none) :
    get_leader c round firewall dns = .error .configurationError := by
  obtain ⟨e, he, hm⟩ := hmiss
  unfold get_leader
  rw [resolveAll_error_of_missing dns _ ⟨e.2, List.mem_map_of_mem Prod.snd he, hm⟩]

/-- Two sorted lists that are permutations of each other are equal, provided
no two elements tie on their virtual endpoint. -/
theorem eq_of_perm_sorted_nodup (dns : List (Endpoint × Endpoint)) :
    ∀ (s₁ s₂ : List (PublicKey × Authority)), s₁.Perm s₂ →
      List.Sorted (pairLe dns) s₁ → List.Sorted (pairLe dns) s₂ →
      (s₁.map (virtOf dns)).Nodup → s₁ = s₂
  | [], s₂, hperm, _, _, _ => List.Perm.nil_eq hperm
  | a :: t₁, [], hperm, _, _, _ => absurd (List.perm_nil.mp hperm) (by simp)
  | a :: t₁, b :: t₂, hperm, hs₁, hs₂, hnd => by
    obtain ⟨h₁a, h₁s⟩ := List.sorted_cons.mp hs₁
    obtain ⟨h₂b, h₂s⟩ := List.sorted_cons.mp hs₂
    simp only [List.map_cons, List.nodup_cons] at hnd
    have hab : a = b := by
      by_contra hne
      have ha2 : a ∈ t₂ := by
        rcases List.mem_cons.mp (hperm.mem_iff.mp (List.mem_cons_self a t₁)) with h | h
        · exact absurd h hne
        · exact h
      have hb1 : b ∈ t₁ := by
        rcases List.mem_cons.mp (hperm.symm.mem_iff.mp (List.mem_cons_self b t₂)) with h | h
        · exact absurd h.symm hne
        · exact h
      have heq : virtOf dns a = virtOf dns b :=
        IsAntisymm.antisymm (r := epLe) _ _ (h₁a b hb1) (h₂b a ha2)
      exact hnd.1 (heq ▸ List.mem_map_of_mem (virtOf dns) hb1)
    subst hab
    have ht := eq_of_perm_sorted_nodup dns t₁ t₂ hperm.cons_inv h₁s h₂s hnd.2
    rw [ht]

theorem sortedMembers_perm_eq (c₁ c₂ : Committee) (dns : List (Endpoint × Endpoint))
    (hperm : c₁.authorities.Perm c₂.authorities) (hdist : virtsNodup c₁ dns) :
    sortedMembers c₁ dns = sortedMembers c₂ dns := by
  apply eq_of_perm_sorted_nodup dns
  · exact (List.perm_insertionSort _ _).trans (hperm.trans (List.perm_insertionSort _ _).symm)
  · exact List.sorted_insertionSort _ _
  · exact List.sorted_insertionSort _ _
  · exact (((List.perm_insertionSort (pairLe dns) c₁.authorities).map
      (virtOf dns)).nodup_iff).mpr hdist

theorem eligibleList_perm_eq (c₁ c₂ : Committee) (dns : List (Endpoint × Endpoint))
    (firewall : List Endpoint) (hperm : c₁.authorities.Perm c₂.authorities)
    (hdist : virtsNodup c₁ dns) :
    eligibleList c₁ dns firewall = eligibleList c₂ dns firewall := by
  unfold eligibleList
  rw [sortedMembers_perm_eq c₁ c₂ dns hperm hdist]

/-! ## Facts about the eligible list -/

theorem authority_unique (c : Committee) (hkeys : keysNodup c) {k : PublicKey}
    {a b : Authority} (ha : (k, a) ∈ c.authorities) (hb : (k, b) ∈ c.authorities) :
    a = b := by
  have h1 := lookup_eq_some_of_nodup hkeys ha
  have h2 := lookup_eq_some_of_nodup hkeys hb
  rw [h1] at h2
  exact Option.some.inj h2

theorem eligibleList_nodup (c : Committee) (dns : List (Endpoint × Endpoint))
    (firewall : List Endpoint) (hkeys : keysNodup c) :
    (eligibleList c dns firewall).Nodup := by
  have hsub : List.Sublist (eligibleList c dns firewall)
      ((sortedMembers c dns).map Prod.fst) :=
    (List.filter_sublist _).map Prod.fst
  have hnd : ((sortedMembers c dns).map Prod.fst).Nodup :=
    (((List.perm_insertionSort (pairLe dns) c.authorities).map Prod.fst).nodup_iff).mpr hkeys
  exact hsub.nodup hnd

theorem eligibleList_empty_firewall (c : Committee) (dns : List (Endpoint × Endpoint)) :
    eligibleList c dns [] = (sortedMembers c dns).map Prod.fst := by
  unfold eligibleList
  congr 1
  apply List.filter_eq_self.mpr
  intro e _
  simp

theorem length_eligibleList_empty (c : Committee) (dns : List (Endpoint × Endpoint)) :
    (eligibleList c dns []).length = c.authorities.length := by
  rw [eligibleList_empty_firewall, List.length_map]
  exact (List.perm_insertionSort (pairLe dns) c.authorities).length_eq

theorem eligibleList_length_pos (c : Committee) (dns : List (Endpoint × Endpoint))
    (firewall : List Endpoint) (e : PublicKey × Authority) (he : e ∈ c.authorities)
    (hf : virtOf dns e ∉ firewall) :
    0 < (eligibleList c dns firewall).length := by
  have hes : e ∈ sortedMembers c dns :=
    (List.perm_insertionSort (pairLe dns) c.authorities).mem_iff.mpr he
  have hef : e ∈ (sortedMembers c dns).filter
      fun f => !(firewall.contains (virtOf dns f)) :=
    List.mem_filter.mpr ⟨hes, by simp [hf]⟩
  have : e.1 ∈ eligibleList c dns firewall := List.mem_map_of_mem Prod.fst hef
  exact List.length_pos.mpr (List.ne_nil_of_mem this)

theorem mem_of_mem_eligibleList (c : Committee) (dns : List (Endpoint × Endpoint))
    (firewall : List Endpoint) (k : PublicKey) (hk : k ∈ eligibleList c dns firewall) :
    ∃ e ∈ c.authorities, e.1 = k ∧ virtOf dns e ∉ firewall := by
  obtain ⟨e, he, rfl⟩ := List.mem_map.mp hk
  have h1 := List.mem_of_mem_filter he
  have h2 := List.of_mem_filter he
  refine ⟨e, (List.perm_insertionSort (pairLe dns) c.authorities).mem_iff.mp h1, rfl, ?_⟩
  simpa using h2

/-! ## C1, C2, C9, C10: the election path -/

/-- C1: when the firewall excludes the virtual endpoint of every committee
member the eligible set is empty and the reference implementation traps
(modulo by zero at `round as usize % size_by_firewall(..)`) instead of
surfacing a recoverable EmptyCandidateSet error: on the spec's three-member
example with all three endpoints firewalled, `get_leader` panics. -/
theorem c1_all_excluded_traps :
    get_leader exCommittee 0 [epA, epB, epC] exDns = .error .trap := by
  rfl

/-- C2: on a committee with pairwise-distinct virtual endpoints, an address
map covering every committee endpoint, and at least one eligible member,
`get_leader` returns the identity at position round mod N of the eligible
candidate list (members sorted ascending by virtual endpoint, firewalled ones
dropped), where N equals both the eligible-list length and the Committee's
count of members not excluded by the firewall set. -/
theorem c2_round_robin (c : Committee) (round : Nat) (firewall : List Endpoint)
    (dns : List (Endpoint × Endpoint)) (hkeys : keysNodup c) (hcov : covers dns c)
    (hdist : virtsNodup c dns)
    (helig : ∃ e ∈ c.authorities, virtOf dns e ∉ firewall) :
    get_leader c round firewall dns =
      .ok ((eligibleList c dns firewall).getD
        (round % (eligibleList c dns firewall).length) 0) ∧
    (eligibleList c dns firewall).length = c.size_by_firewall dns firewall := by
  obtain ⟨e, he, hf⟩ := helig
  have hpos := eligibleList_length_pos c dns firewall e he hf
  refine ⟨?_, (size_by_firewall_eq c dns firewall hcov).symm⟩
  rw [get_leader_eq_spec c round firewall dns hkeys hcov hdist]
  rw [if_neg (Nat.pos_iff_ne_zero.mp hpos)]

/-- C2 witness: the general theorem instantiated on the example committee with
B's endpoint firewalled, at round 5. -/
theorem c2_round_robin_witness :
    get_leader exCommittee 5 [epB] exDns =
      .ok ((eligibleList exCommittee exDns [epB]).getD
        (5 % (eligibleList exCommittee exDns [epB]).length) 0) ∧
    (eligibleList exCommittee exDns [epB]).length =
      exCommittee.size_by_firewall exDns [epB] :=
  c2_round_robin exCommittee 5 [epB] exDns (by decide) (by decide) (by decide)
    ⟨(pkA, ⟨epA⟩), by decide, by decide⟩

/-- C9: a committee endpoint missing from the address map makes `get_leader`
fail immediately with the fatal configuration error (the `dns[..]` panic)
before any identity is produced, and with a covering address map that failure
cannot occur. -/
theorem c9_missing_dns_config_error (c : Committee) (round : Nat)
    (firewall : List Endpoint) (dns : List (Endpoint × Endpoint)) :
    ((∃ e ∈ c.authorities, dns.lookup e.2.address = none) →
      get_leader c round firewall dns = .error .configurationError) ∧
    (covers dns c →
      get_leader c round firewall dns ≠ .error .configurationError) := by
  constructor
  · exact fun hmiss => get_leader_config_of_missing c round firewall dns hmiss
  · intro hcov
    have hc : ∀ k ep, c.address k = some ep → (dns.lookup ep).isSome := by
      intro k ep hk
      unfold Committee.address at hk
      cases hl : c.authorities.lookup k with
      | none => rw [hl] at hk; simp at hk
      | some a =>
        rw [hl] at hk
        simp only [Option.map_some', Option.some.injEq] at hk
        exact hk ▸ hcov _ (mem_of_lookup_eq_some hl)
    have hres : resolveAll dns (c.authorities.map Prod.snd) =
        .ok (c.authorities.map (virtOf dns)) := by
      rw [resolveAll_eq_map dns _ fun a ha => by
        obtain ⟨e, he, rfl⟩ := List.mem_map.mp ha
        exact hcov e he]
      rw [List.map_map]
      rfl
    unfold get_leader
    rw [hres]
    simp only []
    cases hb : buildKeysOrder c dns (c.authorities.map Prod.fst)
        (List.insertionSort epLe (c.authorities.map (virtOf dns))) with
    | error e =>
      have hne := buildKeysOrder_ne_config c dns (c.authorities.map Prod.fst) hc
        (List.insertionSort epLe (c.authorities.map (virtOf dns)))
      rw [hb] at hne
      simpa using hne
    | ok keys_order =>
      simp only []
      cases hr : retainMask keys_order
          ((List.insertionSort epLe (c.authorities.map (virtOf dns))).map
            fun v => !(firewall.contains v)) with
      | error e =>
        have hne := retainMask_ne_config keys_order
          ((List.insertionSort epLe (c.authorities.map (virtOf dns))).map
            fun v => !(firewall.contains v))
        rw [hr] at hne
        simpa using hne
      | ok retained =>
        simp only []
        by_cases h0 : c.size_by_firewall dns firewall = 0
        · simp [h0]
        · cases hg : retained[round % c.size_by_firewall dns firewall]? with
          | none => simp [h0, hg]
          | some k => simp [h0, hg]

/-- C9 witness: the theorem instantiated on the example committee, once with
an address map missing C's endpoint and once with the full map. -/
theorem c9_missing_dns_config_error_witness :
    get_leader exCommittee 0 [] exDnsPartial = .error .configurationError ∧
    get_leader exCommittee 0 [] exDns ≠ .error .configurationError :=
  ⟨(c9_missing_dns_config_error exCommittee 0 [] exDnsPartial).1
      ⟨(pkC, ⟨epC⟩), by decide, by decide⟩,
   (c9_missing_dns_config_error exCommittee 0 [] exDns).2 (by decide)⟩

/-- C10: if two distinct members resolve to the same virtual endpoint, the
expanded `keys_order` list is strictly longer than the one-entry-per-member
eligibility mask, the `retain` step exhausts its mask iterator, and
`get_leader` panics — it completes without panicking only when the virtual
endpoints are pairwise distinct. -/
theorem c10_virtual_collision_traps (c : Committee) (round : Nat)
    (firewall : List Endpoint) (dns : List (Endpoint × Endpoint))
    (hkeys : keysNodup c) (hcov : covers dns c) (hdup : ¬ virtsNodup c dns) :
    get_leader c round firewall dns = .error .trap :=
  get_leader_trap_of_collision c round firewall dns hkeys hcov hdup

/-- C10 witness: two members colliding on one virtual endpoint trap. -/
theorem c10_virtual_collision_traps_witness :
    get_leader collCommittee 0 [] collDns = .error .trap :=
  c10_virtual_collision_traps collCommittee 0 [] collDns (by decide) (by decide)
    (by decide)

/-! ## C3, C4, C5: determinism, rotation, exclusion -/

/-- C3: `get_leader` is a pure function of its four inputs — two runs over the
same committee snapshot held in different internal storage/iteration orders
return the same result. -/
theorem c3_storage_order_irrelevant (c₁ c₂ : Committee) (round : Nat)
    (firewall : List Endpoint) (dns : List (Endpoint × Endpoint))
    (hperm : c₁.authorities.Perm c₂.authorities) (hkeys : keysNodup c₁) :
    get_leader c₁ round firewall dns = get_leader c₂ round firewall dns := by
  have hkeys₂ : keysNodup c₂ := ((hperm.map Prod.fst).nodup_iff).mp hkeys
  by_cases hcov : covers dns c₁
  · have hcov₂ : covers dns c₂ := fun e he => hcov e (hperm.mem_iff.mpr he)
    by_cases hdist : virtsNodup c₁ dns
    · have hdist₂ : virtsNodup c₂ dns := ((hperm.map (virtOf dns)).nodup_iff).mp hdist
      rw [get_leader_eq_spec c₁ round firewall dns hkeys hcov hdist,
          get_leader_eq_spec c₂ round firewall dns hkeys₂ hcov₂ hdist₂,
          eligibleList_perm_eq c₁ c₂ dns firewall hperm hdist]
    · have hdist₂ : ¬ virtsNodup c₂ dns := fun h =>
        hdist (((hperm.map (virtOf dns)).nodup_iff).mpr h)
      rw [get_leader_trap_of_collision c₁ round firewall dns hkeys hcov hdist,
          get_leader_trap_of_collision c₂ round firewall dns hkeys₂ hcov₂ hdist₂]
  · have hmiss : ∃ e ∈ c₁.authorities, dns.lookup e.2.address = none := by
      unfold covers at hcov
      push_neg at hcov
      obtain ⟨e, he, h⟩ := hcov
      exact ⟨e, he, Option.not_isSome_iff_eq_none.mp h⟩
    obtain ⟨e, he, hm⟩ := hmiss
    rw [get_leader_config_of_missing c₁ round firewall dns ⟨e, he, hm⟩,
        get_leader_config_of_missing c₂ round firewall dns ⟨e, hperm.mem_iff.mp he, hm⟩]

/-- C3 witness: the example committee in two storage orders elects the same
leader. -/
theorem c3_storage_order_irrelevant_witness :
    get_leader exCommittee 7 [epB] exDns = get_leader exCommitteeRev 7 [epB] exDns :=
  c3_storage_order_irrelevant exCommittee exCommitteeRev 7 [epB] exDns
    (by decide) (by decide)

/-- C4: with an empty firewall, `get_leader` cycles through all N identities
with period N = committee size: `elect(r + N) = elect(r)` and rounds `0..N-1`
yield pairwise distinct results; on the spec's example committee,
elect(0)=A, elect(1)=B, elect(2)=C, elect(3)=A. -/
theorem c4_rotation (c : Committee) (dns : List (Endpoint × Endpoint))
    (hkeys : keysNodup c) (hcov : covers dns c) (hdist : virtsNodup c dns) :
    (∀ round, get_leader c (round + c.authorities.length) [] dns =
      get_leader c round [] dns) ∧
    (∀ i j, i < c.authorities.length → j < c.authorities.length →
      get_leader c i [] dns = get_leader c j [] dns → i = j) ∧
    (get_leader exCommittee 0 [] exDns = .ok pkA ∧
     get_leader exCommittee 1 [] exDns = .ok pkB ∧
     get_leader exCommittee 2 [] exDns = .ok pkC ∧
     get_leader exCommittee 3 [] exDns = .ok pkA) := by
  have hL := length_eligibleList_empty c dns
  refine ⟨?_, ?_, rfl, rfl, rfl, rfl⟩
  · intro round
    rw [get_leader_eq_spec c (round + c.authorities.length) [] dns hkeys hcov hdist,
        get_leader_eq_spec c round [] dns hkeys hcov hdist, ← hL, Nat.add_mod_right]
  · intro i j hi hj h
    rw [get_leader_eq_spec c i [] dns hkeys hcov hdist,
        get_leader_eq_spec c j [] dns hkeys hcov hdist] at h
    have hi' : i < (eligibleList c dns []).length := by rw [hL]; exact hi
    have hj' : j < (eligibleList c dns []).length := by rw [hL]; exact hj
    have hlen0 : ¬ (eligibleList c dns []).length = 0 := by omega
    rw [if_neg hlen0, if_neg hlen0] at h
    have h' := Except.ok.inj h
    rw [Nat.mod_eq_of_lt hi', Nat.mod_eq_of_lt hj'] at h'
    rw [List.getD_eq_getElem _ _ hi', List.getD_eq_getElem _ _ hj'] at h'
    exact (List.Nodup.getElem_inj_iff (eligibleList_nodup c dns [] hkeys)).mp h'

/-- C4 witness: the rotation theorem instantiated on the example committee. -/
theorem c4_rotation_witness :
    get_leader exCommittee (1 + exCommittee.authorities.length) [] exDns =
      get_leader exCommittee 1 [] exDns ∧
    get_leader exCommittee 0 [] exDns = .ok pkA :=
  ⟨(c4_rotation exCommittee exDns (by decide) (by decide) (by decide)).1 1,
   (c4_rotation exCommittee exDns (by decide) (by decide) (by decide)).2.2.1⟩

theorem filter_length_split {α : Type} (p : α → Bool) :
    ∀ l : List α, (l.filter p).length + (l.filter fun a => !(p a)).length = l.length
  | [] => rfl
  | a :: t => by
    have ih := filter_length_split p t
    by_cases h : p a
    · simp [List.filter_cons, h]
      omega
    · simp [List.filter_cons, h]
      omega

/-- C5: a firewall containing identity X's virtual endpoint removes X from all
election results, the cycle length becomes N − |excluded| (which is exactly
the Committee's not-excluded count), and on the example committee with
firewall {B}: elect(0)=A, elect(1)=C, elect(2)=A, elect(3)=C. -/
theorem c5_exclusion (c : Committee) (dns : List (Endpoint × Endpoint))
    (firewall : List Endpoint) (X : PublicKey) (aX : Authority)
    (hkeys : keysNodup c) (hcov : covers dns c) (hdist : virtsNodup c dns)
    (hmem : (X, aX) ∈ c.authorities) (hfw : virtOf dns (X, aX) ∈ firewall) :
    (∀ round, get_leader c round firewall dns ≠ .ok X) ∧
    (∀ round, get_leader c (round + (c.authorities.length -
        (c.authorities.filter fun e => firewall.contains (virtOf dns e)).length))
        firewall dns = get_leader c round firewall dns) ∧
    (c.size_by_firewall dns firewall = c.authorities.length -
      (c.authorities.filter fun e => firewall.contains (virtOf dns e)).length) ∧
    (get_leader exCommittee 0 [epB] exDns = .ok pkA ∧
     get_leader exCommittee 1 [epB] exDns = .ok pkC ∧
     get_leader exCommittee 2 [epB] exDns = .ok pkA ∧
     get_leader exCommittee 3 [epB] exDns = .ok pkC) := by
  have h1 : c.size_by_firewall dns firewall =
      (c.authorities.filter fun e => !(firewall.contains (virtOf dns e))).length := by
    unfold Committee.size_by_firewall
    apply congrArg List.length
    apply List.filter_congr
    intro e he
    obtain ⟨v, hv⟩ := Option.isSome_iff_exists.mp (hcov e he)
    simp [hv, virtOf, resolveAuthority]
  have hsplit : (c.authorities.filter fun e => firewall.contains (virtOf dns e)).length +
      (c.authorities.filter fun e => !(firewall.contains (virtOf dns e))).length =
      c.authorities.length := by
    have := filter_length_split (fun e => firewall.contains (virtOf dns e)) c.authorities
    simpa using this
  have hexcl : (c.authorities.filter fun e => firewall.contains (virtOf dns e)).length ≤
      c.authorities.length := by omega
  have hcount : c.size_by_firewall dns firewall = c.authorities.length -
      (c.authorities.filter fun e => firewall.contains (virtOf dns e)).length := by
    omega
  have hnotin : X ∉ eligibleList c dns firewall := by
    intro hX
    obtain ⟨e, he, hfst, hnfw⟩ := mem_of_mem_eligibleList c dns firewall X hX
    obtain ⟨k, a⟩ := e
    cases hfst
    have ha : a = aX := authority_unique c hkeys he hmem
    subst ha
    exact hnfw hfw
  have hsz := size_by_firewall_eq c dns firewall hcov
  refine ⟨?_, ?_, hcount, rfl, rfl, rfl, rfl⟩
  · intro round
    rw [get_leader_eq_spec c round firewall dns hkeys hcov hdist]
    by_cases h0 : (eligibleList c dns firewall).length = 0
    · simp [h0]
    · rw [if_neg h0]
      intro hcontra
      have hk := Except.ok.inj hcontra
      have hlt : round % (eligibleList c dns firewall).length <
          (eligibleList c dns firewall).length :=
        Nat.mod_lt _ (Nat.pos_of_ne_zero h0)
      rw [List.getD_eq_getElem _ _ hlt] at hk
      exact hnotin (hk ▸ List.getElem_mem hlt)
  · intro round
    have hper : c.authorities.length -
        (c.authorities.filter fun e => firewall.contains (virtOf dns e)).length =
        (eligibleList c dns firewall).length := by omega
    rw [get_leader_eq_spec c (round + (c.authorities.length -
        (c.authorities.filter fun e => firewall.contains (virtOf dns e)).length))
        firewall dns hkeys hcov hdist,
      get_leader_eq_spec c round firewall dns hkeys hcov hdist, hper, Nat.add_mod_right]

/-- C5 witness: on the example committee with firewall {B}, B is never elected
and round 1 elects C. -/
theorem c5_exclusion_witness :
    get_leader exCommittee 9 [epB] exDns ≠ .ok pkB ∧
    get_leader exCommittee 1 [epB] exDns = .ok pkC :=
  ⟨(c5_exclusion exCommittee exDns [epB] pkB ⟨epB⟩ (by decide) (by decide) (by decide)
      (by decide) (by decide)).1 9,
   (c5_exclusion exCommittee exDns [epB] pkB ⟨epB⟩ (by decide) (by decide) (by decide)
      (by decide) (by decide)).2.2.2.2.1⟩

/-! ## C6, C7, C8: the transport path -/

/-- C6: `send`'s drop-or-deliver decision consults only the firewall
schedule's last entry and the peer's virtual endpoint — the caller-supplied
`current_round` never influences the outcome, and the call is a silent no-op
exactly when the resolved virtual endpoint lies in the last entry. -/
theorem c6_send_ignores_round (s : DelayedSender) (env : SendEnv)
    (address : Endpoint) (data : Bytes) (r₁ r₂ : Nat) (v : Endpoint)
    (es : List Endpoint) (hv : s.dns.lookup address = some v)
    (hlast : lastEntry s = some es) :
    s.send env address data r₁ = s.send env address data r₂ ∧
    (s.send env address data r₁ = .ok (s, []) ↔ es.contains v = true) := by
  refine ⟨rfl, ?_⟩
  unfold DelayedSender.send
  rw [hv]
  simp only []
  rw [hlast]
  simp only []
  by_cases hin : es.contains v = true
  · rw [if_neg (by rw [hin]; simp)]
    exact iff_of_true rfl hin
  · have hin' : es.contains v = false := by
      cases h : es.contains v with
      | true => exact absurd h hin
      | false => rfl
    rw [if_pos (by rw [hin']; rfl), hin']
    simp only [Bool.false_eq_true, iff_false]
    have hne : ∀ env' : SendEnv,
        (Except.ok (sendNew s env' address data) :
          Except SendError (DelayedSender × List Event)) ≠ .ok (s, []) := by
      intro env'
      by_cases hn : env'.newSendOk = true
      · simp [sendNew, hn]
      · simp [sendNew, hn]
    cases hc : s.connections.lookup address with
    | some tx =>
      cases he : env.existingSendOk with
      | true => simp [he]
      | false => simpa [he] using hne env
    | none => exact hne env

/-- C6 witness: the round argument does not matter and the non-firewalled peer
A is not dropped. -/
theorem c6_send_ignores_round_witness :
    exSender.send ⟨true, true⟩ epA [1] 0 = exSender.send ⟨true, true⟩ epA [1] 99 ∧
    (exSender.send ⟨true, true⟩ epA [1] 0 = .ok (exSender, []) ↔
      ([epB] : List Endpoint).contains epA = true) :=
  c6_send_ignores_round exSender ⟨true, true⟩ epA [1] 0 99 epA [epB] rfl rfl

/-- C7: sending to a peer whose virtual endpoint is in the schedule's last
entry returns normally as a silent no-op: no `Connection` is spawned, no event
is produced, and the sender's state (registry included) is unchanged. -/
theorem c7_firewalled_send_noop (s : DelayedSender) (env : SendEnv)
    (address : Endpoint) (data : Bytes) (current_round : Nat) (v : Endpoint)
    (es : List Endpoint) (hv : s.dns.lookup address = some v)
    (hlast : lastEntry s = some es) (hin : es.contains v = true) :
    s.send env address data current_round = .ok (s, []) := by
  unfold DelayedSender.send
  rw [hv]
  simp only []
  rw [hlast]
  simp only []
  rw [if_neg (by rw [hin]; simp)]

/-- C7 witness: sending to firewalled B is the identity on state with no
events. -/
theorem c7_firewalled_send_noop_witness :
    exSender.send ⟨true, true⟩ epB [1] 3 = .ok (exSender, []) :=
  c7_firewalled_send_noop exSender ⟨true, true⟩ epB [1] 3 epB [epB] rfl rfl rfl

/-- C8: `lucky_broadcast` permutes the peer list with the injected shuffle
source, keeps the first k, and hands exactly that k-element list to the send
path: when the peers are pairwise distinct and k ≤ n, the targeted list has
exactly k distinct addresses, all drawn from the input list. -/
theorem c8_lucky_broadcast_subset (s : DelayedSender) (envs : Nat → SendEnv)
    (shuffle : List Endpoint → List Endpoint) (addresses : List Endpoint)
    (data : Bytes) (nodes : Nat) (current_round : Nat)
    (hperm : (shuffle addresses).Perm addresses) (hnd : addresses.Nodup)
    (hk : nodes ≤ addresses.length) :
    s.lucky_broadcast envs shuffle addresses data nodes current_round =
      s.broadcast envs ((shuffle addresses).take nodes) data current_round ∧
    ((shuffle addresses).take nodes).length = nodes ∧
    ((shuffle addresses).take nodes).Nodup ∧
    (∀ a ∈ (shuffle addresses).take nodes, a ∈ addresses) := by
  refine ⟨rfl, ?_, ?_, ?_⟩
  · rw [List.length_take, hperm.length_eq]
    exact Nat.min_eq_left hk
  · exact (List.take_sublist _ _).nodup (hperm.nodup_iff.mpr hnd)
  · intro a ha
    exact hperm.subset (List.take_subset _ _ ha)

/-- C8 witness: ten distinct peers, k = 3, reversal as the injected shuffle —
exactly 3 distinct peers, all from the input list, are targeted. -/
theorem c8_lucky_broadcast_subset_witness :
    exSender.lucky_broadcast (fun i => ⟨true, true⟩) List.reverse exPeers [1] 3 0 =
      exSender.broadcast (fun i => ⟨true, true⟩) ((List.reverse exPeers).take 3) [1] 0 ∧
    ((List.reverse exPeers).take 3).length = 3 ∧
    ((List.reverse exPeers).take 3).Nodup ∧
    (∀ a ∈ (List.reverse exPeers).take 3, a ∈ exPeers) :=
  c8_lucky_broadcast_subset exSender (fun i => ⟨true, true⟩) List.reverse exPeers
    [1] 3 0 (List.reverse_perm exPeers) (by decide) (by decide)

end FShadows
